import Mathlib

/-!
Verification of the outlier-removal algorithm of
`Point_set_processing_3/include/CGAL/remove_outliers.h`.

The embedding models the kernel field type `FT` by `ℚ` (exact arithmetic),
a point by a triple of rationals, and the point collection by a `List`.
The external proximity index (`Point_set_processing_3::internal::Neighbor_query`,
which is not part of this source unit) is an abstract structure holding the
`get_points` operation; concrete instances are supplied where a claim needs one.
The C++ function returns an iterator into the (reordered) collection; the
embedding returns the reordered list together with the cut position as an index,
`points.length` playing the role of the `points.end()` sentinel.
-/

namespace CGAL

/-- A 3D point with rational coordinates. -/
abbrev Point : Type := ℚ × ℚ × ℚ

/-- Squared Euclidean distance, the embedding of `Kernel::Compute_squared_distance_3`. -/
def sqd (p q : Point) : ℚ :=
  (p.1 - q.1) ^ 2 + (p.2.1 - q.2.1) ^ 2 + (p.2.2 - q.2.2) ^ 2

/-- The external proximity index consumed by the algorithm: `get_points query k
neighbor_radius` returns the neighbor list of a query point.  Its construction and
query algorithm live outside this source unit. -/
structure NeighborQuery where
  get_points : Point → ℕ → ℚ → List Point

/-- Embedding of `internal::compute_avg_knn_sq_distance_3`: asks the proximity
index for the neighbors of `query`, accumulates the squared distances from
`query` to each returned neighbor, and divides by the number of returned
neighbors.  The source contains no guard for an empty neighbor list; the
division by the (then zero) count is modelled by the total division of `ℚ`. -/
def compute_avg_knn_sq_distance_3 (neighbor_query : NeighborQuery) (query : Point)
    (k : ℕ) (neighbor_radius : ℚ) : ℚ :=
  let points := neighbor_query.get_points query k neighbor_radius
  points.foldl (fun sq_distance nbr => sq_distance + sqd nbr query) 0 / (points.length : ℚ)

/-- Insertion of a `(score, point)` pair into a key-sorted list at the upper bound
of its equal-key range: the behaviour of `std::multimap<FT, Enriched_point>::insert`
used by the scoring pass (equal keys keep insertion order). -/
def mmInsert (x : ℚ × Point) : List (ℚ × Point) → List (ℚ × Point)
  | [] => [x]
  | y :: ys => if y.1 ≤ x.1 then y :: mmInsert x ys else x :: y :: ys

/-- The scoring pass of `remove_outliers`: walks the input in order, inserts each
point with its score into the multimap, and polls the callback (when present)
with `(nb + 1) / nb_points` after each point; a `false` answer aborts the pass,
modelled by `none`. -/
def scoringLoop (score : Point → ℚ) (callback : Option (ℚ → Bool)) (nb_points : ℕ) :
    List Point → ℕ → List (ℚ × Point) → Option (List (ℚ × Point))
  | [], _, sorted_points => some sorted_points
  | vt :: rest, nb, sorted_points =>
    match callback with
    | some f =>
      if f ((nb + 1 : ℚ) / (nb_points : ℚ)) then
        scoringLoop score callback nb_points rest (nb + 1) (mmInsert (score vt, vt) sorted_points)
      else none
    | none => scoringLoop score callback nb_points rest (nb + 1) (mmInsert (score vt, vt) sorted_points)

/-- Truncation toward zero of a rational number: the semantics of the C++
conversion `int(double)` applied to a finite value. -/
def intTrunc (q : ℚ) : ℤ := if 0 ≤ q then ⌊q⌋ else ⌈q⌉

/-- The selection walk of `remove_outliers`: visits the multimap content in
ascending key order while writing it back over the collection, and advances the
`first_point_to_remove` marker past position `index` whenever
`index <= first_index_to_remove` or the score is below the squared distance
threshold.  Arguments after the list are `index`, `dst` and the current marker,
all starting at `0`; the result is the final marker (the cut position). -/
def selectLoop (threshold_distance : ℚ) (first_index_to_remove : ℤ) :
    List (ℚ × Point) → ℤ → ℕ → ℕ → ℕ
  | [], _, _, first_point_to_remove => first_point_to_remove
  | src :: rest, index, dst, first_point_to_remove =>
    if index ≤ first_index_to_remove ∨ src.1 < threshold_distance * threshold_distance then
      selectLoop threshold_distance first_index_to_remove rest (index + 1) (dst + 1) (dst + 1)
    else
      selectLoop threshold_distance first_index_to_remove rest (index + 1) (dst + 1) first_point_to_remove

/-- Embedding of `CGAL::remove_outliers`: scores every point (with cancellation
through the callback), and on completion rewrites the collection in ascending
score order and returns it with the cut position computed from
`first_index_to_remove = int(size * ((100 - threshold_percent) / 100))` and the
squared `threshold_distance`.  A cancelled run returns the untouched input
together with the end sentinel `points.length`. -/
def remove_outliers (neighbor_query : NeighborQuery) (points : List Point) (k : ℕ)
    (neighbor_radius threshold_percent threshold_distance : ℚ)
    (callback : Option (ℚ → Bool)) : List Point × ℕ :=
  match scoringLoop (fun vt => compute_avg_knn_sq_distance_3 neighbor_query vt k neighbor_radius)
      callback points.length points 0 [] with
  | none => (points, points.length)
  | some sorted_points =>
    (sorted_points.map Prod.snd,
     selectLoop threshold_distance
       (intTrunc ((sorted_points.length : ℚ) * ((100 - threshold_percent) / 100)))
       sorted_points 0 0 0)

/-- Modelled from the spec: the external proximity index (CGAL's internal
`Neighbor_query`, not part of this source unit).  In the `neighbor_radius = 0`
pure k-nearest mode it returns, for a query point, the `k` nearest other points
of the indexed collection, ties broken by collection order. -/
def kNearest (all : List Point) : NeighborQuery :=
  ⟨fun query k _nr =>
    (((all.filter (fun p => p ≠ query)).foldl
        (fun acc p => mmInsert (sqd p query, p) acc) []).map Prod.snd).take k⟩

/-- Arithmetic mean of the squared distances from a query point to a neighbor
list, written from the specification's words for comparison with
`compute_avg_knn_sq_distance_3`. -/
def arithMeanSqDist (query : Point) (neighbors : List Point) : ℚ :=
  (neighbors.map (fun nbr => sqd nbr query)).sum / (neighbors.length : ℚ)

/-- The concrete scenario of the spec: nine points in a tight cluster (a planar
grid of spacing 1/10, adjacent points at distance exactly 1/10) and one far
point at distance about 100 from all of them, listed last. -/
def clusterAndFar : List Point :=
  [(0, 0, 0), (1/10, 0, 0), (2/10, 0, 0),
   (0, 1/10, 0), (1/10, 1/10, 0), (2/10, 1/10, 0),
   (0, 2/10, 0), (1/10, 2/10, 0), (2/10, 2/10, 0),
   (100, 0, 0)]

/-! Basic properties of the multimap insertion. -/

theorem mmInsert_perm (x : ℚ × Point) (l : List (ℚ × Point)) :
    (mmInsert x l).Perm (x :: l) := by
  induction l with
  | nil => simp [mmInsert]
  | cons y ys ih =>
    by_cases h : y.1 ≤ x.1
    · simpa [mmInsert, h] using ((ih.cons y).trans (List.Perm.swap x y ys))
    · simp [mmInsert, h]

theorem mmInsert_length (x : ℚ × Point) (l : List (ℚ × Point)) :
    (mmInsert x l).length = l.length + 1 := by
  simpa using (mmInsert_perm x l).length_eq

theorem mem_mmInsert (y x : ℚ × Point) (l : List (ℚ × Point)) :
    y ∈ mmInsert x l ↔ y = x ∨ y ∈ l := by
  simpa using (mmInsert_perm x l).mem_iff

theorem mmInsert_pairwise {x : ℚ × Point} {l : List (ℚ × Point)}
    (hl : l.Pairwise (fun a b => a.1 ≤ b.1)) :
    (mmInsert x l).Pairwise (fun a b => a.1 ≤ b.1) := by
  induction l with
  | nil => simp [mmInsert]
  | cons y ys ih =>
    rcases List.pairwise_cons.1 hl with ⟨hy, hys⟩
    by_cases h : y.1 ≤ x.1
    · rw [mmInsert, if_pos h]
      refine List.pairwise_cons.2 ⟨?_, ih hys⟩
      intro b hb
      rcases (mem_mmInsert b x ys).1 hb with hb | hb
      · exact hb ▸ h
      · exact hy b hb
    · rw [mmInsert, if_neg h]
      refine List.pairwise_cons.2 ⟨?_, hl⟩
      intro b hb
      rcases List.mem_cons.1 hb with hb | hb
      · exact hb ▸ le_of_lt (lt_of_not_le h)
      · exact le_trans (le_of_lt (lt_of_not_le h)) (hy b hb)

theorem mmInsert_filter_key {l : List (ℚ × Point)} (x : ℚ × Point) (s : ℚ)
    (hl : l.Pairwise (fun a b => a.1 ≤ b.1)) :
    (mmInsert x l).filter (fun y => y.1 = s)
      = if x.1 = s then l.filter (fun y => y.1 = s) ++ [x]
        else l.filter (fun y => y.1 = s) := by
  induction l with
  | nil => by_cases hx : x.1 = s <;> simp [mmInsert, hx]
  | cons y ys ih =>
    rcases List.pairwise_cons.1 hl with ⟨hy, hys⟩
    by_cases h : y.1 ≤ x.1
    · rw [mmInsert, if_pos h]
      by_cases hx : x.1 = s <;> by_cases hyk : y.1 = s <;>
        simp [List.filter_cons, hx, hyk, ih hys]
    · rw [mmInsert, if_neg h]
      by_cases hx : x.1 = s
      · have hnone : (y :: ys).filter (fun z => z.1 = s) = [] := by
          rw [List.filter_eq_nil_iff]
          intro z hz
          have hyz : y.1 ≤ z.1 := by
            rcases List.mem_cons.1 hz with hz | hz
            · exact hz ▸ le_refl _
            · exact hy z hz
          have hlt : x.1 < z.1 := lt_of_lt_of_le (lt_of_not_le h) hyz
          simp only [decide_eq_true_eq]
          intro hzs
          exact absurd (hzs.trans hx.symm).le (not_le.2 hlt)
        simp [List.filter_cons, hx, hnone]
      · simp [List.filter_cons, hx]

/-! Properties of the ranking structure built by folding `mmInsert` over the input. -/

theorem foldl_mmInsert_perm (score : Point → ℚ) (pts : List Point) :
    ∀ acc, (pts.foldl (fun a vt => mmInsert (score vt, vt) a) acc).Perm
      (pts.map (fun vt => (score vt, vt)) ++ acc) := by
  induction pts with
  | nil => intro acc; simp
  | cons p ps ih =>
    intro acc
    have h1 := ih (mmInsert (score p, p) acc)
    have h2 : (ps.map (fun vt => (score vt, vt)) ++ mmInsert (score p, p) acc).Perm
        (ps.map (fun vt => (score vt, vt)) ++ ((score p, p) :: acc)) :=
      (mmInsert_perm (score p, p) acc).append_left _
    have h3 : (ps.map (fun vt => (score vt, vt)) ++ ((score p, p) :: acc)).Perm
        ((score p, p) :: (ps.map (fun vt => (score vt, vt)) ++ acc)) :=
      List.perm_middle
    simpa [List.foldl_cons] using (h1.trans h2).trans h3

theorem foldl_mmInsert_pairwise (score : Point → ℚ) (pts : List Point) :
    ∀ acc, acc.Pairwise (fun a b => a.1 ≤ b.1) →
      (pts.foldl (fun a vt => mmInsert (score vt, vt) a) acc).Pairwise
        (fun a b => a.1 ≤ b.1) := by
  induction pts with
  | nil => intro acc h; simpa using h
  | cons p ps ih =>
    intro acc h
    simpa [List.foldl_cons] using ih (mmInsert (score p, p) acc) (mmInsert_pairwise h)

theorem foldl_mmInsert_filter (score : Point → ℚ) (s : ℚ) (pts : List Point) :
    ∀ acc, acc.Pairwise (fun a b => a.1 ≤ b.1) →
      (pts.foldl (fun a vt => mmInsert (score vt, vt) a) acc).filter (fun y => y.1 = s)
        = acc.filter (fun y => y.1 = s)
          ++ (pts.filter (fun vt => score vt = s)).map (fun vt => (score vt, vt)) := by
  induction pts with
  | nil => intro acc _; simp
  | cons p ps ih =>
    intro acc h
    rw [List.foldl_cons, ih (mmInsert (score p, p) acc) (mmInsert_pairwise h),
      mmInsert_filter_key (score p, p) s h]
    by_cases hp : score p = s <;> simp [List.filter_cons, hp]

/-! Properties of the scoring pass. -/

theorem scoringLoop_none_callback (score : Point → ℚ) (nb_points : ℕ) (pts : List Point) :
    ∀ nb acc, scoringLoop score none nb_points pts nb acc
      = some (pts.foldl (fun a vt => mmInsert (score vt, vt) a) acc) := by
  induction pts with
  | nil => intro nb acc; simp [scoringLoop]
  | cons p ps ih => intro nb acc; simp [scoringLoop, List.foldl_cons, ih]

theorem scoringLoop_eq_some (score : Point → ℚ) (cb : Option (ℚ → Bool)) (nb_points : ℕ)
    (pts : List Point) :
    ∀ nb acc out, scoringLoop score cb nb_points pts nb acc = some out →
      out = pts.foldl (fun a vt => mmInsert (score vt, vt) a) acc := by
  induction pts with
  | nil =>
    intro nb acc out h
    simp only [scoringLoop, Option.some.injEq] at h
    simp [h.symm]
  | cons p ps ih =>
    intro nb acc out h
    match cb with
    | none =>
      rw [scoringLoop] at h
      exact ih (nb + 1) (mmInsert (score p, p) acc) out h
    | some f =>
      rw [scoringLoop] at h
      by_cases hf : f ((nb + 1 : ℚ) / (nb_points : ℚ)) = true
      · rw [if_pos hf] at h
        exact ih (nb + 1) (mmInsert (score p, p) acc) out h
      · rw [if_neg hf] at h
        exact absurd h (by simp)

theorem scoringLoop_isSome_iff (score : Point → ℚ) (f : ℚ → Bool) (nb_points : ℕ)
    (pts : List Point) :
    ∀ nb acc, scoringLoop score (some f) nb_points pts nb acc ≠ none ↔
      ∀ i < pts.length, f ((((nb + i : ℕ) : ℚ) + 1) / (nb_points : ℚ)) = true := by
  induction pts with
  | nil => intro nb acc; simp [scoringLoop]
  | cons p ps ih =>
    intro nb acc
    rw [scoringLoop]
    by_cases hf : f ((nb + 1 : ℚ) / (nb_points : ℚ)) = true
    · rw [if_pos hf, ih (nb + 1) (mmInsert (score p, p) acc)]
      constructor
      · intro h i hi
        cases i with
        | zero => simpa using hf
        | succ j =>
          have hj : j < ps.length := by simpa using hi
          have := h j hj
          have harg : ((nb + 1 + j : ℕ) : ℚ) = ((nb + (j + 1) : ℕ) : ℚ) := by
            push_cast; ring
          rw [harg] at this
          exact this
      · intro h j hj
        have := h (j + 1) (by simpa using hj)
        have harg : ((nb + (j + 1) : ℕ) : ℚ) = ((nb + 1 + j : ℕ) : ℚ) := by
          push_cast; ring
        rw [harg] at this
        exact this
    · rw [if_neg hf]
      simp only [ne_eq, not_true_eq_false, false_iff, not_forall]
      refine ⟨0, by simp, ?_⟩
      simpa using hf

/-! Properties of the selection walk. -/

theorem selectLoop_le (d : ℚ) (fir : ℤ) (l : List (ℚ × Point)) :
    ∀ i dst m, m ≤ dst → selectLoop d fir l i dst m ≤ dst + l.length := by
  induction l with
  | nil => intro i dst m h; simpa [selectLoop] using h.trans (Nat.le_add_right dst 0)
  | cons x xs ih =>
    intro i dst m h
    rw [selectLoop]
    simp only [List.length_cons]
    by_cases hc : i ≤ fir ∨ x.1 < d * d
    · rw [if_pos hc]
      have := ih (i + 1) (dst + 1) (dst + 1) (le_refl _)
      omega
    · rw [if_neg hc]
      have := ih (i + 1) (dst + 1) m (h.trans (Nat.le_succ dst))
      omega

theorem selectLoop_ge (d : ℚ) (fir : ℤ) (l : List (ℚ × Point)) :
    ∀ i dst m, m ≤ dst → m ≤ selectLoop d fir l i dst m := by
  induction l with
  | nil => intro i dst m _; simp [selectLoop]
  | cons x xs ih =>
    intro i dst m h
    rw [selectLoop]
    by_cases hc : i ≤ fir ∨ x.1 < d * d
    · rw [if_pos hc]
      have := ih (i + 1) (dst + 1) (dst + 1) (le_refl _)
      omega
    · rw [if_neg hc]
      exact ih (i + 1) (dst + 1) m (h.trans (Nat.le_succ dst))

theorem selectLoop_mono (d : ℚ) (fir fir' : ℤ) (hf : fir' ≤ fir) (l : List (ℚ × Point)) :
    ∀ i dst m m', m' ≤ m → m ≤ dst → m' ≤ dst →
      selectLoop d fir' l i dst m' ≤ selectLoop d fir l i dst m := by
  induction l with
  | nil => intro i dst m m' h _ _; simpa [selectLoop] using h
  | cons x xs ih =>
    intro i dst m m' h hm hm'
    rw [selectLoop, selectLoop]
    by_cases hc' : i ≤ fir' ∨ x.1 < d * d
    · have hc : i ≤ fir ∨ x.1 < d * d := by
        rcases hc' with hc' | hc'
        · exact Or.inl (hc'.trans hf)
        · exact Or.inr hc'
      rw [if_pos hc', if_pos hc]
      exact ih (i + 1) (dst + 1) (dst + 1) (dst + 1) (le_refl _) (le_refl _) (le_refl _)
    · rw [if_neg hc']
      by_cases hc : i ≤ fir ∨ x.1 < d * d
      · rw [if_pos hc]
        exact ih (i + 1) (dst + 1) (dst + 1) m' (hm'.trans (Nat.le_succ dst))
          (le_refl _) (hm'.trans (Nat.le_succ dst))
      · rw [if_neg hc]
        exact ih (i + 1) (dst + 1) m m' h (hm.trans (Nat.le_succ dst))
          (hm'.trans (Nat.le_succ dst))

theorem selectLoop_percent_only {d : ℚ} {l : List (ℚ × Point)} (fir : ℤ)
    (hd : ∀ x ∈ l, ¬ x.1 < d * d) :
    ∀ i dst m, selectLoop d fir l i dst m
      = if i ≤ fir ∧ l ≠ [] then dst + min l.length ((fir - i).toNat + 1) else m := by
  induction l with
  | nil => intro i dst m; simp [selectLoop]
  | cons x xs ih =>
    intro i dst m
    have hx : ¬ x.1 < d * d := hd x (List.mem_cons_self x xs)
    have hxs : ∀ y ∈ xs, ¬ y.1 < d * d := fun y hy => hd y (List.mem_cons_of_mem x hy)
    rw [selectLoop]
    by_cases hi : i ≤ fir
    · rw [if_pos (Or.inl hi), ih hxs (i + 1) (dst + 1) (dst + 1),
        if_pos (show i ≤ fir ∧ x :: xs ≠ [] from ⟨hi, List.cons_ne_nil x xs⟩)]
      by_cases hA : i + 1 ≤ fir ∧ xs ≠ []
      · rw [if_pos hA]
        obtain ⟨hi1, _⟩ := hA
        simp only [List.length_cons]
        omega
      · rw [if_neg hA]
        by_cases hxe : xs = []
        · subst hxe
          simp only [List.length_cons, List.length_nil]
          omega
        · have hi1 : ¬ i + 1 ≤ fir := fun h => hA ⟨h, hxe⟩
          simp only [List.length_cons]
          omega
    · rw [if_neg (not_or.2 ⟨hi, hx⟩), ih hxs (i + 1) (dst + 1) m,
        if_neg (show ¬ (i + 1 ≤ fir ∧ xs ≠ []) from fun h => absurd h.1 (by omega)),
        if_neg (show ¬ (i ≤ fir ∧ x :: xs ≠ []) from fun h => absurd h.1 hi)]

theorem selectLoop_pos_index {d : ℚ} {l : List (ℚ × Point)}
    (hl : l.Pairwise (fun a b => a.1 ≤ b.1)) :
    ∀ i : ℤ, 1 ≤ i → ∀ dst m, selectLoop d 0 l i dst m
      = if l.countP (fun x => x.1 < d * d) = 0 then m
        else dst + l.countP (fun x => x.1 < d * d) := by
  induction l with
  | nil => intro i _ dst m; simp [selectLoop]
  | cons x xs ih =>
    intro i hi dst m
    rcases List.pairwise_cons.1 hl with ⟨hxle, hxs⟩
    rw [selectLoop]
    have hi0 : ¬ i ≤ 0 := by omega
    by_cases hxd : x.1 < d * d
    · rw [if_pos (Or.inr hxd), ih hxs (i + 1) (by omega) (dst + 1) (dst + 1)]
      simp only [List.countP_cons, decide_eq_true_eq, hxd, if_true]
      by_cases hc0 : xs.countP (fun x => x.1 < d * d) = 0
      · simp [hc0]
      · rw [if_neg hc0, if_neg (by omega : ¬ xs.countP (fun x => x.1 < d * d) + 1 = 0)]
        omega
    · rw [if_neg (not_or.2 ⟨hi0, hxd⟩), ih hxs (i + 1) (by omega) (dst + 1) m]
      have hc0 : xs.countP (fun x => x.1 < d * d) = 0 := by
        rw [List.countP_eq_zero]
        intro y hy
        simp only [decide_eq_true_eq]
        exact fun hyd => hxd (lt_of_le_of_lt (hxle y hy) hyd)
      simp [List.countP_cons, hc0, hxd]

theorem selectLoop_zero_fir {d : ℚ} {l : List (ℚ × Point)}
    (hl : l.Pairwise (fun a b => a.1 ≤ b.1)) (hne : l ≠ []) :
    selectLoop d 0 l 0 0 0 = max 1 (l.countP (fun x => x.1 < d * d)) := by
  cases l with
  | nil => exact absurd rfl hne
  | cons x xs =>
    rcases List.pairwise_cons.1 hl with ⟨hxle, hxs⟩
    rw [selectLoop, if_pos (Or.inl (le_refl (0 : ℤ)))]
    norm_num only
    rw [selectLoop_pos_index hxs 1 (le_refl 1) 1 1]
    by_cases hc0 : xs.countP (fun x => x.1 < d * d) = 0
    · by_cases hxd : x.1 < d * d <;> simp [List.countP_cons, hc0, hxd]
    · have hxd : x.1 < d * d := by
        obtain ⟨y, hy, hyd⟩ := List.countP_pos_iff.1 (Nat.pos_of_ne_zero hc0)
        simp only [decide_eq_true_eq] at hyd
        exact lt_of_le_of_lt (hxle y hy) hyd
      simp only [List.countP_cons, decide_eq_true_eq, hxd, if_true, if_neg hc0]
      omega

/-! Properties of truncation toward zero. -/

theorem intTrunc_mono {a b : ℚ} (h : a ≤ b) : intTrunc a ≤ intTrunc b := by
  rw [intTrunc, intTrunc]
  by_cases ha : 0 ≤ a
  · rw [if_pos ha, if_pos (ha.trans h)]
    exact Int.floor_le_floor h
  · rw [if_neg ha]
    by_cases hb : 0 ≤ b
    · rw [if_pos hb]
      have h1 : ⌈a⌉ ≤ 0 := Int.ceil_le.2 (by exact_mod_cast le_of_not_le ha)
      have h2 : (0 : ℤ) ≤ ⌊b⌋ := Int.floor_nonneg.2 hb
      omega
    · rw [if_neg hb]
      exact Int.ceil_le_ceil h

theorem intTrunc_nonneg {a : ℚ} (h : 0 ≤ a) : 0 ≤ intTrunc a := by
  rw [intTrunc, if_pos h]
  exact Int.floor_nonneg.2 h

/-! Nonnegativity of the density scores. -/

theorem sqd_nonneg (p q : Point) : 0 ≤ sqd p q := by
  rw [sqd]
  positivity

theorem foldl_add_sqd (q : Point) (l : List Point) :
    ∀ a : ℚ, l.foldl (fun acc nbr => acc + sqd nbr q) a
      = a + (l.map (fun nbr => sqd nbr q)).sum := by
  induction l with
  | nil => intro a; simp
  | cons x xs ih => intro a; simp [List.foldl_cons, ih, add_assoc]

theorem compute_avg_nonneg (nq : NeighborQuery) (q : Point) (k : ℕ) (r : ℚ) :
    0 ≤ compute_avg_knn_sq_distance_3 nq q k r := by
  simp only [compute_avg_knn_sq_distance_3]
  refine div_nonneg ?_ (by positivity)
  rw [foldl_add_sqd, zero_add]
  exact List.sum_nonneg (by
    intro y hy
    obtain ⟨nbr, _, rfl⟩ := List.mem_map.1 hy
    exact sqd_nonneg nbr q)

/-- Every entry of the ranking structure carries the score of its point, and its
point comes from the input. -/
theorem mem_scored {score : Point → ℚ} {pts : List Point} {y : ℚ × Point}
    (hy : y ∈ pts.foldl (fun a vt => mmInsert (score vt, vt) a) []) :
    y.1 = score y.2 ∧ y.2 ∈ pts := by
  have hmem := (foldl_mmInsert_perm score pts []).mem_iff.1 hy
  simp only [List.append_nil, List.mem_map] at hmem
  obtain ⟨vt, hvt, hvy⟩ := hmem
  subst hvy
  exact ⟨rfl, hvt⟩

/-- Unfolding of a completed (non-cancelled) run of the engine. -/
theorem remove_outliers_of_some {nq : NeighborQuery} {pts : List Point} {k : ℕ}
    {r p d : ℚ} {cb : Option (ℚ → Bool)} {sorted : List (ℚ × Point)}
    (hs : scoringLoop (fun vt => compute_avg_knn_sq_distance_3 nq vt k r) cb
        pts.length pts 0 [] = some sorted) :
    remove_outliers nq pts k r p d cb
      = (sorted.map Prod.snd,
         selectLoop d (intTrunc ((sorted.length : ℚ) * ((100 - p) / 100))) sorted 0 0 0) := by
  simp only [remove_outliers, hs]

/-- Facts available about the ranking structure of a completed run: it is a
permutation of the scored input, has the input's length, and is sorted by key. -/
theorem sorted_of_scoringLoop {score : Point → ℚ} {cb : Option (ℚ → Bool)} {N : ℕ}
    {pts : List Point} {sorted : List (ℚ × Point)}
    (hs : scoringLoop score cb N pts 0 [] = some sorted) :
    sorted.Perm (pts.map fun vt => (score vt, vt)) ∧
      sorted.length = pts.length ∧
      sorted.Pairwise (fun a b => a.1 ≤ b.1) := by
  have he := scoringLoop_eq_some score cb N pts 0 [] sorted hs
  subst he
  refine ⟨?_, ?_, ?_⟩
  · simpa using foldl_mmInsert_perm score pts []
  · have := (foldl_mmInsert_perm score pts []).length_eq
    simpa using this
  · exact foldl_mmInsert_pairwise score pts [] (List.Pairwise.nil)

/-- C6: the Neighborhood Statistic Estimator returns exactly the arithmetic mean
of the squared distances from the query point to the returned neighbors,
dividing by the exact number of returned neighbors (not by `k`): its value
equals the spec-side arithmetic mean, and multiplied back by the returned
neighbor count it yields the sum of squared distances. -/
theorem compute_avg_is_arith_mean (nq : NeighborQuery) (query : Point) (k : ℕ)
    (neighbor_radius : ℚ)
    (h : 1 ≤ (nq.get_points query k neighbor_radius).length) :
    compute_avg_knn_sq_distance_3 nq query k neighbor_radius
        = arithMeanSqDist query (nq.get_points query k neighbor_radius) ∧
      compute_avg_knn_sq_distance_3 nq query k neighbor_radius
          * ((nq.get_points query k neighbor_radius).length : ℚ)
        = ((nq.get_points query k neighbor_radius).map (fun nbr => sqd nbr query)).sum := by
  have hlen : ((nq.get_points query k neighbor_radius).length : ℚ) ≠ 0 := by
    exact_mod_cast Nat.pos_iff_ne_zero.1 h
  constructor
  · simp only [compute_avg_knn_sq_distance_3, arithMeanSqDist, foldl_add_sqd, zero_add]
  · simp only [compute_avg_knn_sq_distance_3, foldl_add_sqd, zero_add]
    exact div_mul_cancel₀ _ hlen

/-- A proximity index answering every query with two fixed neighbors, used to
exhibit a call with fewer returned neighbors than the requested k. -/
def nqTwo : NeighborQuery := ⟨fun _ _ _ => [(1, 0, 0), (3, 0, 0)]⟩

theorem compute_avg_is_arith_mean_witness :
    1 ≤ (nqTwo.get_points (0, 0, 0) 5 0).length ∧
      (compute_avg_knn_sq_distance_3 nqTwo (0, 0, 0) 5 0
          = arithMeanSqDist (0, 0, 0) (nqTwo.get_points (0, 0, 0) 5 0) ∧
        compute_avg_knn_sq_distance_3 nqTwo (0, 0, 0) 5 0
            * ((nqTwo.get_points (0, 0, 0) 5 0).length : ℚ)
          = ((nqTwo.get_points (0, 0, 0) 5 0).map (fun nbr => sqd nbr (0, 0, 0))).sum) :=
  ⟨by decide, compute_avg_is_arith_mean nqTwo (0, 0, 0) 5 0 (by decide)⟩

/-- C7: the Estimator has no guard against an empty neighbor set: when the
proximity index returns no neighbor, the final division is a division by the
zero count (modelled by the total division of ℚ), and under the caller
precondition that at least one neighbor is returned the zero divisor is
unreachable. -/
theorem compute_avg_no_empty_guard :
    (∀ (nq : NeighborQuery) (query : Point) (k : ℕ) (r : ℚ),
        nq.get_points query k r = [] →
          compute_avg_knn_sq_distance_3 nq query k r
            = ((nq.get_points query k r).foldl
                (fun sq_distance nbr => sq_distance + sqd nbr query) 0) / (0 : ℚ)) ∧
      (∀ (nq : NeighborQuery) (query : Point) (k : ℕ) (r : ℚ),
        nq.get_points query k r ≠ [] → ((nq.get_points query k r).length : ℚ) ≠ 0) := by
  constructor
  · intro nq query k r h
    simp only [compute_avg_knn_sq_distance_3, h, List.length_nil, Nat.cast_zero]
  · intro nq query k r h
    exact_mod_cast Nat.pos_iff_ne_zero.1 (List.length_pos.2 h)

/-- A proximity index returning no neighbor at all. -/
def nqEmpty : NeighborQuery := ⟨fun _ _ _ => []⟩

/-- A proximity index returning exactly one neighbor. -/
def nqOne : NeighborQuery := ⟨fun _ _ _ => [(0, 0, 0)]⟩

theorem compute_avg_no_empty_guard_witness :
    (nqEmpty.get_points (0, 0, 0) 2 0 = [] ∧
      compute_avg_knn_sq_distance_3 nqEmpty (0, 0, 0) 2 0
        = ((nqEmpty.get_points (0, 0, 0) 2 0).foldl
            (fun sq_distance nbr => sq_distance + sqd nbr (0, 0, 0)) 0) / (0 : ℚ)) ∧
    (nqOne.get_points (0, 0, 0) 2 0 ≠ [] ∧
      ((nqOne.get_points (0, 0, 0) 2 0).length : ℚ) ≠ 0) :=
  ⟨⟨rfl, compute_avg_no_empty_guard.1 nqEmpty (0, 0, 0) 2 0 rfl⟩,
   ⟨by decide, compute_avg_no_empty_guard.2 nqOne (0, 0, 0) 2 0 (by decide)⟩⟩

/-- C3: after a completed (non-cancelled) run on a non-empty input with k ≥ 2 and
threshold_percent in [0,100], the returned cut position lies within the
collection, and the collection after the run is a size-preserving permutation of
the original contents: the run itself deletes nothing. -/
theorem remove_outliers_range_perm (nq : NeighborQuery) (pts : List Point) (k : ℕ)
    (r p d : ℚ) (cb : Option (ℚ → Bool))
    (hne : pts ≠ []) (hk : 2 ≤ k) (hp0 : 0 ≤ p) (hp1 : p ≤ 100)
    (hc : scoringLoop (fun vt => compute_avg_knn_sq_distance_3 nq vt k r) cb
        pts.length pts 0 [] ≠ none) :
    (remove_outliers nq pts k r p d cb).2 ≤ (remove_outliers nq pts k r p d cb).1.length ∧
      (remove_outliers nq pts k r p d cb).1.length = pts.length ∧
      (remove_outliers nq pts k r p d cb).1.Perm pts := by
  obtain ⟨sorted, hs⟩ := Option.ne_none_iff_exists'.1 hc
  obtain ⟨hperm, hlen, _⟩ := sorted_of_scoringLoop hs
  rw [remove_outliers_of_some hs]
  refine ⟨?_, ?_, ?_⟩
  · simpa [List.length_map] using
      selectLoop_le d (intTrunc ((sorted.length : ℚ) * ((100 - p) / 100))) sorted 0 0 0
        (le_refl 0)
  · simpa [List.length_map] using hlen
  · have h1 := hperm.map Prod.snd
    rw [List.map_map] at h1
    have h2 : pts.map (Prod.snd ∘ fun vt => (compute_avg_knn_sq_distance_3 nq vt k r, vt))
        = pts := by
      simp [Function.comp_def]
    rwa [h2] at h1

/-- A proximity index used for concrete engine runs: every query point receives
the origin as its single neighbor, so a point's score is its squared norm. -/
def nqOrigin : NeighborQuery := ⟨fun _ _ _ => [(0, 0, 0)]⟩

/-- A small concrete input collection with pairwise distinct scores under
nqOrigin (scores 0, 9, 1 in input order). -/
def wpts : List Point := [(0, 0, 0), (3, 0, 0), (1, 0, 0)]

theorem remove_outliers_range_perm_witness :
    (wpts ≠ [] ∧ 2 ≤ 2 ∧ (0 : ℚ) ≤ 10 ∧ (10 : ℚ) ≤ 100 ∧
      scoringLoop (fun vt => compute_avg_knn_sq_distance_3 nqOrigin vt 2 0) none
        wpts.length wpts 0 [] ≠ none) ∧
      ((remove_outliers nqOrigin wpts 2 0 10 0 none).2
          ≤ (remove_outliers nqOrigin wpts 2 0 10 0 none).1.length ∧
        (remove_outliers nqOrigin wpts 2 0 10 0 none).1.length = wpts.length ∧
        (remove_outliers nqOrigin wpts 2 0 10 0 none).1.Perm wpts) :=
  ⟨⟨by decide, by decide, by norm_num, by norm_num, by with_unfolding_all decide⟩,
   remove_outliers_range_perm nqOrigin wpts 2 0 10 0 none (by decide) (by decide)
     (by norm_num) (by norm_num) (by with_unfolding_all decide)⟩

/-- C10: every completed run on a non-empty input (with threshold_percent in
[0,100]) keeps at least one point: the cut position is strictly after the
beginning, because the keep test `index <= first_index_to_remove` holds at index
0 for every nonnegative first_index_to_remove, even with threshold_percent = 100
and threshold_distance = 0. -/
theorem remove_outliers_keeps_one (nq : NeighborQuery) (pts : List Point) (k : ℕ)
    (r p d : ℚ) (cb : Option (ℚ → Bool))
    (hne : pts ≠ []) (hp0 : 0 ≤ p) (hp1 : p ≤ 100)
    (hc : scoringLoop (fun vt => compute_avg_knn_sq_distance_3 nq vt k r) cb
        pts.length pts 0 [] ≠ none) :
    1 ≤ (remove_outliers nq pts k r p d cb).2 := by
  obtain ⟨sorted, hs⟩ := Option.ne_none_iff_exists'.1 hc
  obtain ⟨_, hlen, _⟩ := sorted_of_scoringLoop hs
  rw [remove_outliers_of_some hs]
  have hfir : 0 ≤ intTrunc ((sorted.length : ℚ) * ((100 - p) / 100)) := by
    refine intTrunc_nonneg (mul_nonneg (Nat.cast_nonneg _) (div_nonneg ?_ ?_))
    · linarith
    · norm_num
  cases hsort : sorted with
  | nil =>
    rw [hsort] at hlen
    exact absurd (List.length_eq_zero.1 hlen.symm) hne
  | cons x xs =>
    rw [hsort] at hfir
    rw [selectLoop, if_pos (Or.inl hfir)]
    exact selectLoop_ge d _ xs (0 + 1) (0 + 1) (0 + 1) (le_refl _)

theorem remove_outliers_keeps_one_witness :
    (wpts ≠ [] ∧ (0 : ℚ) ≤ 100 ∧ (100 : ℚ) ≤ 100 ∧
      scoringLoop (fun vt => compute_avg_knn_sq_distance_3 nqOrigin vt 2 0) none
        wpts.length wpts 0 [] ≠ none) ∧
      1 ≤ (remove_outliers nqOrigin wpts 2 0 100 0 none).2 :=
  ⟨⟨by decide, by norm_num, by norm_num, by with_unfolding_all decide⟩,
   remove_outliers_keeps_one nqOrigin wpts 2 0 100 0 none (by decide) (by norm_num)
     (by norm_num) (by with_unfolding_all decide)⟩

/-- C4: if the callback cancels the scoring pass — in particular when it answers
false at the very first polled point — the run returns the input collection
completely unmodified together with the end-of-collection sentinel position,
meaning no point is to be removed. -/
theorem remove_outliers_cancel_unmodified (nq : NeighborQuery) (pts : List Point)
    (k : ℕ) (r p d : ℚ) (cb : Option (ℚ → Bool)) :
    (scoringLoop (fun vt => compute_avg_knn_sq_distance_3 nq vt k r) cb
        pts.length pts 0 [] = none →
      remove_outliers nq pts k r p d cb = (pts, pts.length)) ∧
    (∀ f : ℚ → Bool, cb = some f → pts ≠ [] →
      f (1 / (pts.length : ℚ)) = false →
      remove_outliers nq pts k r p d cb = (pts, pts.length)) := by
  constructor
  · intro h
    simp only [remove_outliers, h]
  · intro f hcb hne hf
    subst hcb
    cases pts with
    | nil => exact absurd rfl hne
    | cons q rest =>
      have hnone : scoringLoop (fun vt => compute_avg_knn_sq_distance_3 nq vt k r)
          (some f) (q :: rest).length (q :: rest) 0 [] = none := by
        rw [scoringLoop]
        have harg : (((0 : ℕ) : ℚ) + 1) / (((q :: rest).length : ℕ) : ℚ)
            = 1 / (((q :: rest).length : ℕ) : ℚ) := by norm_num
        rw [if_neg (by rw [harg, hf]; simp)]
      simp only [remove_outliers, hnone]

theorem remove_outliers_cancel_unmodified_witness :
    (wpts ≠ [] ∧ (fun _ : ℚ => false) (1 / (wpts.length : ℚ)) = false) ∧
      remove_outliers nqOrigin wpts 2 0 10 0 (some (fun _ => false)) = (wpts, wpts.length) :=
  ⟨⟨by decide, rfl⟩,
   (remove_outliers_cancel_unmodified nqOrigin wpts 2 0 10 0 (some (fun _ => false))).2
     (fun _ => false) rfl (by decide) rfl⟩

/-- C9: the scoring pass polls the callback once per scored point with argument
(completed count) / (total count): the pass completes exactly when the callback
answers true at every argument (i+1)/N for i < N, and each such argument lies in
the half-open interval (0, 1]. -/
theorem callback_polled_each_point (nq : NeighborQuery) (pts : List Point) (k : ℕ)
    (r : ℚ) (f : ℚ → Bool) (hne : pts ≠ []) :
    (scoringLoop (fun vt => compute_avg_knn_sq_distance_3 nq vt k r) (some f)
        pts.length pts 0 [] ≠ none ↔
      ∀ i < pts.length, f (((i : ℚ) + 1) / (pts.length : ℚ)) = true) ∧
    (∀ i < pts.length, 0 < ((i : ℚ) + 1) / (pts.length : ℚ) ∧
      ((i : ℚ) + 1) / (pts.length : ℚ) ≤ 1) := by
  have hN : 0 < pts.length := List.length_pos.2 hne
  have hNq : (0 : ℚ) < (pts.length : ℚ) := by exact_mod_cast hN
  constructor
  · rw [scoringLoop_isSome_iff]
    constructor
    · intro h i hi
      have := h i hi
      simpa using this
    · intro h i hi
      have := h i hi
      simpa using this
  · intro i hi
    constructor
    · exact div_pos (by positivity) hNq
    · rw [div_le_one hNq]
      have : (i : ℚ) + 1 ≤ (pts.length : ℚ) := by exact_mod_cast Nat.succ_le_of_lt hi
      exact this

theorem callback_polled_each_point_witness :
    wpts ≠ [] ∧
      ((scoringLoop (fun vt => compute_avg_knn_sq_distance_3 nqOrigin vt 2 0)
          (some fun q => decide (0 < q)) wpts.length wpts 0 [] ≠ none ↔
        ∀ i < wpts.length,
          (fun q => decide (0 < q)) (((i : ℚ) + 1) / (wpts.length : ℚ)) = true) ∧
      (∀ i < wpts.length, 0 < ((i : ℚ) + 1) / (wpts.length : ℚ) ∧
        ((i : ℚ) + 1) / (wpts.length : ℚ) ≤ 1)) :=
  ⟨by decide,
   callback_polled_each_point nqOrigin wpts 2 0 (fun q => decide (0 < q)) (by decide)⟩

/-- C8: the ranking is stable: among points with an identical score, the
ascending-score order written back into the collection by a completed run
preserves the points' original input order (the sublist of points of any fixed
score is unchanged). -/
theorem remove_outliers_stable_ties (nq : NeighborQuery) (pts : List Point) (k : ℕ)
    (r p d s : ℚ) (cb : Option (ℚ → Bool))
    (hc : scoringLoop (fun vt => compute_avg_knn_sq_distance_3 nq vt k r) cb
        pts.length pts 0 [] ≠ none) :
    (remove_outliers nq pts k r p d cb).1.filter
        (fun vt => compute_avg_knn_sq_distance_3 nq vt k r = s)
      = pts.filter (fun vt => compute_avg_knn_sq_distance_3 nq vt k r = s) := by
  obtain ⟨sorted, hs⟩ := Option.ne_none_iff_exists'.1 hc
  rw [remove_outliers_of_some hs]
  have he := scoringLoop_eq_some (fun vt => compute_avg_knn_sq_distance_3 nq vt k r)
    cb pts.length pts 0 [] sorted hs
  have hfk : sorted.filter (fun y => compute_avg_knn_sq_distance_3 nq y.2 k r = s)
      = sorted.filter (fun y => y.1 = s) := by
    refine List.filter_congr ?_
    intro y hy
    rw [he] at hy
    have hks := (mem_scored hy).1
    simp only [decide_eq_decide]
    rw [hks]
  calc (sorted.map Prod.snd).filter (fun vt => compute_avg_knn_sq_distance_3 nq vt k r = s)
      = (sorted.filter (fun y => compute_avg_knn_sq_distance_3 nq y.2 k r = s)).map
          Prod.snd := by
        rw [List.filter_map]
        rfl
    _ = (sorted.filter (fun y => y.1 = s)).map Prod.snd := by rw [hfk]
    _ = pts.filter (fun vt => compute_avg_knn_sq_distance_3 nq vt k r = s) := by
        rw [he, foldl_mmInsert_filter _ s pts [] List.Pairwise.nil]
        simp [List.map_map, Function.comp_def]

/-- A concrete input containing two points with the same score 1 under nqOrigin,
separated by a point of score 9: scores in input order are 1, 9, 1. -/
def tiePts : List Point := [(1, 0, 0), (3, 0, 0), (-1, 0, 0)]

theorem remove_outliers_stable_ties_witness :
    scoringLoop (fun vt => compute_avg_knn_sq_distance_3 nqOrigin vt 2 0) none
        tiePts.length tiePts 0 [] ≠ none ∧
      (remove_outliers nqOrigin tiePts 2 0 10 0 none).1.filter
          (fun vt => compute_avg_knn_sq_distance_3 nqOrigin vt 2 0 = 1)
        = tiePts.filter (fun vt => compute_avg_knn_sq_distance_3 nqOrigin vt 2 0 = 1) :=
  ⟨by with_unfolding_all decide,
   remove_outliers_stable_ties nqOrigin tiePts 2 0 10 0 1 none
     (by with_unfolding_all decide)⟩

/-- C5: with the input, k, neighbor_radius, threshold_distance and callback all
fixed, raising threshold_percent within [0,100] never decreases the number of
points marked for removal (the points at or after the returned cut position). -/
theorem remove_outliers_percent_monotone (nq : NeighborQuery) (pts : List Point)
    (k : ℕ) (r d : ℚ) (cb : Option (ℚ → Bool)) (p1 p2 : ℚ)
    (h0 : 0 ≤ p1) (h12 : p1 ≤ p2) (h2 : p2 ≤ 100) :
    (remove_outliers nq pts k r p1 d cb).1.length - (remove_outliers nq pts k r p1 d cb).2
      ≤ (remove_outliers nq pts k r p2 d cb).1.length
        - (remove_outliers nq pts k r p2 d cb).2 := by
  cases hs : scoringLoop (fun vt => compute_avg_knn_sq_distance_3 nq vt k r) cb
      pts.length pts 0 [] with
  | none => simp only [remove_outliers, hs]; omega
  | some sorted =>
    rw [remove_outliers_of_some hs, remove_outliers_of_some hs]
    simp only [List.length_map]
    have hfir : intTrunc ((sorted.length : ℚ) * ((100 - p2) / 100))
        ≤ intTrunc ((sorted.length : ℚ) * ((100 - p1) / 100)) := by
      refine intTrunc_mono (mul_le_mul_of_nonneg_left (by linarith) (Nat.cast_nonneg _))
    have hcut := selectLoop_mono d
      (intTrunc ((sorted.length : ℚ) * ((100 - p1) / 100)))
      (intTrunc ((sorted.length : ℚ) * ((100 - p2) / 100))) hfir sorted 0 0 0 0
      (le_refl 0) (le_refl 0) (le_refl 0)
    omega

theorem remove_outliers_percent_monotone_witness :
    ((0 : ℚ) ≤ 50 ∧ (50 : ℚ) ≤ 100 ∧ (100 : ℚ) ≤ 100) ∧
      (remove_outliers nqOrigin wpts 2 0 50 0 none).1.length
          - (remove_outliers nqOrigin wpts 2 0 50 0 none).2
        ≤ (remove_outliers nqOrigin wpts 2 0 100 0 none).1.length
          - (remove_outliers nqOrigin wpts 2 0 100 0 none).2 :=
  ⟨⟨by norm_num, by norm_num, by norm_num⟩,
   remove_outliers_percent_monotone nqOrigin wpts 2 0 0 none 50 100 (by norm_num)
     (by norm_num) (by norm_num)⟩

/-- C2 amended: on a completed run, with threshold_percent = 100 the percent
criterion still always keeps the lowest-score point — the number of kept points
is max 1 (number of points whose score is below threshold_distance squared) —
and, as claimed, with threshold_distance = 0 only the percent criterion
determines the cut: the cut equals min N (first_index_to_remove + 1). -/
theorem percent100_and_distance0_amended (nq : NeighborQuery) (pts : List Point)
    (k : ℕ) (r p d : ℚ) (cb : Option (ℚ → Bool))
    (hne : pts ≠ []) (hp0 : 0 ≤ p) (hp1 : p ≤ 100)
    (hc : scoringLoop (fun vt => compute_avg_knn_sq_distance_3 nq vt k r) cb
        pts.length pts 0 [] ≠ none) :
    (p = 100 →
      (remove_outliers nq pts k r p d cb).2
        = max 1 (pts.countP
            (fun vt => compute_avg_knn_sq_distance_3 nq vt k r < d * d))) ∧
    (d = 0 →
      (remove_outliers nq pts k r p d cb).2
        = min pts.length
            ((intTrunc ((pts.length : ℚ) * ((100 - p) / 100))).toNat + 1)) := by
  obtain ⟨sorted, hs⟩ := Option.ne_none_iff_exists'.1 hc
  obtain ⟨hperm, hlen, hpw⟩ := sorted_of_scoringLoop hs
  have hsne : sorted ≠ [] := by
    intro h
    rw [h] at hlen
    exact hne (List.length_eq_zero.1 hlen.symm)
  constructor
  · intro hp
    subst hp
    rw [remove_outliers_of_some hs]
    have hfir0 : intTrunc ((sorted.length : ℚ) * ((100 - 100) / 100)) = 0 := by
      norm_num [intTrunc]
    simp only [hfir0]
    rw [selectLoop_zero_fir hpw hsne]
    congr 1
    rw [hperm.countP_eq, List.countP_map]
    rfl
  · intro hd
    subst hd
    rw [remove_outliers_of_some hs]
    have hd0 : ∀ x ∈ sorted, ¬ x.1 < (0 : ℚ) * 0 := by
      intro x hx
      have he := scoringLoop_eq_some (fun vt => compute_avg_knn_sq_distance_3 nq vt k r)
        cb pts.length pts 0 [] sorted hs
      rw [he] at hx
      have hks := (mem_scored hx).1
      rw [hks]
      simpa using compute_avg_nonneg nq x.2 k r
    rw [selectLoop_percent_only _ hd0 0 0 0]
    have hfir : 0 ≤ intTrunc ((sorted.length : ℚ) * ((100 - p) / 100)) :=
      intTrunc_nonneg (mul_nonneg (Nat.cast_nonneg _)
        (div_nonneg (by linarith) (by norm_num)))
    rw [if_pos ⟨hfir, hsne⟩, hlen]
    simp

/-- A pair of points at unit distance; under the kNearest index of the pair each
point's score is 1. -/
def twoPts : List Point := [(0, 0, 0), (1, 0, 0)]

/-- C2 counterexample: with threshold_percent = 100 and threshold_distance = 0 on
two points of score 1 each, the claim says a point is kept iff its score is
below 0 squared = 0, so no point would be kept; the run keeps exactly one point
(cut position 1) — the lowest-ranked point, placed first in the unchanged order,
whose score is not below 0 — so "kept iff score below threshold_distance
squared" fails at this input. -/
theorem percent100_kept_iff_cex :
    (remove_outliers (kNearest twoPts) twoPts 2 0 100 0 none).2 = 1 ∧
      (remove_outliers (kNearest twoPts) twoPts 2 0 100 0 none).1 = twoPts ∧
      ¬ compute_avg_knn_sq_distance_3 (kNearest twoPts) (0, 0, 0) 2 0 < 0 * 0 := by
  with_unfolding_all decide

theorem percent100_and_distance0_amended_witness :
    (twoPts ≠ [] ∧ (0 : ℚ) ≤ 100 ∧ (100 : ℚ) ≤ 100 ∧
      scoringLoop (fun vt => compute_avg_knn_sq_distance_3 (kNearest twoPts) vt 2 0) none
        twoPts.length twoPts 0 [] ≠ none) ∧
      ((100 : ℚ) = 100 →
        (remove_outliers (kNearest twoPts) twoPts 2 0 100 0 none).2
          = max 1 (twoPts.countP
              (fun vt => compute_avg_knn_sq_distance_3 (kNearest twoPts) vt 2 0 < 0 * 0))) ∧
      ((0 : ℚ) = 0 →
        (remove_outliers (kNearest twoPts) twoPts 2 0 100 0 none).2
          = min twoPts.length
              ((intTrunc ((twoPts.length : ℚ) * ((100 - 100) / 100))).toNat + 1)) :=
  ⟨⟨by decide, by norm_num, by norm_num, by with_unfolding_all decide⟩,
   percent100_and_distance0_amended (kNearest twoPts) twoPts 2 0 100 0 none (by decide)
     (by norm_num) (by norm_num) (by with_unfolding_all decide)⟩

/-- C1 counterexample: on the ten-point far-cluster scenario with k = 2,
threshold_percent = 10 and threshold_distance = 0, the returned cut position is
10 — the end of the ten-point collection — and not 9 (one position before the
end, i.e. one point removed) as the claim states: the code computes
first_index_to_remove = int(10 * (100-10)/100) = 9 and its keep test
index <= 9 holds at every one of the ten indices, so no point is removed. -/
theorem remove_outliers_far_cluster_cex :
    clusterAndFar.length = 10 ∧
      (remove_outliers (kNearest clusterAndFar) clusterAndFar 2 0 10 0 none).2 = 10 ∧
      (remove_outliers (kNearest clusterAndFar) clusterAndFar 2 0 10 0 none).2 ≠ 9 := by
  with_unfolding_all decide

/-- C1 amended: on the ten-point far-cluster scenario with k = 2,
threshold_percent = 10 and threshold_distance = 0, the run removes exactly 0
points — the returned cut position equals the end of the reordered collection —
while the far point does occupy the last position of the reordered sequence. -/
theorem remove_outliers_far_cluster_amended :
    (remove_outliers (kNearest clusterAndFar) clusterAndFar 2 0 10 0 none).2
        = clusterAndFar.length ∧
      (remove_outliers (kNearest clusterAndFar) clusterAndFar 2 0 10 0 none).1.getLast?
        = some (100, 0, 0) := by
  with_unfolding_all decide

end CGAL
